import Mathlib

/-!
Verification development for `board_util.py`: a shallow embedding of the
coordinate codec, the transposition cache with its Zobrist table, and the
negamax alpha-beta search `GoBoardUtil.simulate`, together with theorems
settling the specification's claims about them.

Conventions of the embedding:
* Python `None` (the `PASS` sentinel) is modelled as `Option.none`.
* Python exceptions (`ValueError` in `format_point`, failed `assert`s in
  `coord_to_point`) are modelled as `Option.none` results, respectively as
  hypotheses of the theorems stating properties over the asserted domain.
* The mutable transposition dictionary is threaded explicitly as a value of
  type `TT` (an association list whose most recent binding wins, matching
  dictionary overwrite semantics observationally through `lookup`).
* The external board collaborator (stone storage, legality, endgame
  evaluation, move application/undo, and the stone-dependent Zobrist code
  `TranspositionTable.getCode`) is modelled as a structure `Board` of
  functions over an abstract state type, exactly the interface the search
  consumes.
* `simulate` carries a fuel parameter (the source recursion terminates only
  through the external board running out of moves, which the abstract
  interface cannot guarantee); fuel exhaustion yields `none`.  It also
  returns a trace of the operations performed by that one call frame on its
  collaborators (hash computations, cache lookups/stores, endgame queries,
  move enumeration, play/undo); events of recursive child calls are not
  recorded in the parent's trace, so the trace expresses "within one
  expansion" properties.
-/

namespace BoardUtil

/-! ## Color encoding and constants, from the top of `board_util.py` -/

def EMPTY : Nat := 0

def BLACK : Nat := 1

def WHITE : Nat := 2

def BORDER : Nat := 3

def INFINITY : Int := 1000000

def MAXSIZE : Nat := 25

/-! ## Coordinate codec -/

/-- `coord_to_point(row, col, boardsize)`: `NS * row + col` with `NS = boardsize + 1`.
The source's `assert 1 <= row <= boardsize` and `assert 1 <= col <= boardsize`
preconditions appear as hypotheses of the theorems about this function. -/
def coord_to_point (row col boardsize : Nat) : Nat :=
  (boardsize + 1) * row + col

/-- `point_to_coord(point, boardsize)`: `PASS` (here `none`) is returned
unchanged; otherwise `divmod(point, boardsize + 1)`. -/
def point_to_coord (point : Option Nat) (boardsize : Nat) : Option (Nat × Nat) :=
  match point with
  | none => none
  | some p => some (p / (boardsize + 1), p % (boardsize + 1))

/-- The source's 25-letter column alphabet, which skips the letter I. -/
def column_letters : String := "ABCDEFGHJKLMNOPQRSTUVWXYZ"

/-- Python string indexing `s[i]`: a negative index counts from the end of
the string; an index out of range raises (modelled as `none`). -/
def pyStringIndex (s : List Char) (i : Int) : Option Char :=
  let j : Int := if i < 0 then i + s.length else i
  if 0 ≤ j then s.get? j.toNat else none

/-- `format_point(move)`: `"pass"` for `PASS`; otherwise the range check
`not 0 <= row < MAXSIZE or not 0 <= col < MAXSIZE` raises `ValueError`
(modelled as `none`), and otherwise the result is
`column_letters[col - 1] + str(row)`. -/
def format_point (move : Option (Int × Int)) : Option String :=
  match move with
  | none => some "pass"
  | some (row, col) =>
    if ¬ (0 ≤ row ∧ row < (MAXSIZE : Int)) ∨ ¬ (0 ≤ col ∧ col < (MAXSIZE : Int)) then
      none
    else
      match pyStringIndex column_letters.toList (col - 1) with
      | some ch => some (String.mk [ch] ++ toString row)
      | none => none

/-! ## Transposition table -/

/-- The transposition dictionary: hash code to minimax score.  Modelled as
an association list whose most recent binding is found first, which agrees
with dictionary overwrite semantics through `lookup`. -/
abbrev TT := List (Nat × Int)

/-- `store(code, score)`: `self.table[code] = score; return score`. -/
def TT.store (t : TT) (code : Nat) (score : Int) : TT × Int :=
  ((code, score) :: t, score)

/-- `lookup(code)`: `self.table.get(code)`; Python's `dict.get` returns
`None` when the key is absent. -/
def TT.lookup (t : TT) (code : Nat) : Option Int :=
  (t.find? (fun p => p.1 == code)).map (fun p => p.2)

/-- Python `random.randint(lo, hi)`: a random integer in the INCLUSIVE range
`[lo, hi]`.  The draw is modelled by reducing an arbitrary natural from the
random stream into the range. -/
def randint (lo hi : Nat) (r : Nat) : Nat :=
  lo + r % (hi - lo + 1)

/-- The Zobrist table built in `TranspositionTable.__init__`:
`[[[random.randint(1, 2**32 - 1) for i in range(2)] for j in range(size)] for k in range(size)]`,
with the independent draws supplied by `stream`, one per (k, j, i) slot. -/
def zobrist (size : Nat) (stream : Nat → Nat) : List (List (List Nat)) :=
  (List.range size).map (fun k =>
    (List.range size).map (fun j =>
      (List.range 2).map (fun i =>
        randint 1 (2 ^ 32 - 1) (stream ((k * size + j) * 2 + i)))))

/-! ## The external board interface consumed by the search driver -/

/-- The contract `simulate` requires of the external board collaborator,
over an abstract state type `σ`: empty-point enumeration and legality (used
by `generate_legal_moves`), terminal evaluation `evaluate_endgame`, move
application and undo, and the position hash `board.tt.getCode(board)`
(a pure function of the stones on the board, since the Zobrist table is
fixed at construction). -/
structure Board (σ : Type) where
  getEmptyPoints : σ → List Nat
  isLegal : σ → Nat → Nat → Bool
  evaluateEndgame : σ → Nat
  playMove : σ → Nat → Nat → σ
  undoLastMove : σ → σ
  getCode : σ → Nat

/-- `generate_legal_moves(board, color)`: every empty point the board
reports legal for `color`, in the board's enumeration order; never `PASS`. -/
def generate_legal_moves {σ : Type} (B : Board σ) (s : σ) (color : Nat) : List Nat :=
  (B.getEmptyPoints s).filter (fun move => B.isLegal s move color)

/-- `opponent(color) = WHITE + BLACK - color`. -/
def opponent (color : Nat) : Nat :=
  WHITE + BLACK - color

/-! ## The search driver `simulate` -/

/-- One observable operation of a single `simulate` frame on its
collaborators. -/
inductive Ev where
  | getCode (code : Nat)
  | lookup (code : Nat) (result : Option Int)
  | endgame (result : Nat)
  | genMoves (moves : List Nat)
  | play (move : Nat) (color : Nat)
  | store (code : Nat) (value : Int)
  | undo
  deriving DecidableEq, Repr

/-- Result of a `simulate` call: the returned value, the board state and
transposition table after the call, and the trace of this frame's own
operations (child frames' events are not included). -/
structure SimResult (σ : Type) where
  value : Int
  board : σ
  tt : TT
  trace : List Ev
  deriving DecidableEq, Repr

/-- Python truthiness of the cache lookup result, as used by the source's
hit check `if tt_lookup:`: `None` and `0` are falsy. -/
def truthy : Option Int → Bool
  | none => false
  | some v => v != 0

/-- The `for move in legal_moves:` loop body of `simulate` (source lines
245-253), with the recursive call abstracted as `child` (which receives the
played state, the current table, and the current `alpha`):
play the move, negate the child's value, store it under `code` (the code
computed at the top of the frame), raise `alpha` when the value exceeds it
and is strictly positive, undo the move, and return `beta` on cutoff. -/
def simLoop {σ : Type} (B : Board σ) (child : σ → TT → Int → Option (SimResult σ))
    (color code : Nat) (beta : Int) :
    σ → TT → Int → List Nat → List Ev → Option (SimResult σ)
  | s, tt, alpha, [], evs => some ⟨alpha, s, tt, evs⟩
  | s, tt, alpha, move :: rest, evs =>
    let s1 := B.playMove s move color
    match child s1 tt alpha with
    | none => none
    | some r =>
      let value := -r.value
      let tt2 := (TT.store r.tt code value).1
      let alpha2 := if value > alpha ∧ value > 0 then value else alpha
      let s3 := B.undoLastMove r.board
      let evs2 := evs ++ [Ev.play move color, Ev.store code value, Ev.undo]
      if value ≥ beta then some ⟨beta, s3, tt2, evs2⟩
      else simLoop B child color code beta s3 tt2 alpha2 rest evs2

/-- `GoBoardUtil.simulate(board, color, alpha, beta)` (source lines 231-254):
compute the position code, return the cached value on a truthy lookup,
otherwise consult `evaluate_endgame` and on a decided winner store and
return `±1` under a freshly recomputed code, otherwise run the move loop
over `generate_legal_moves`.  `fuel` bounds the recursion depth; `none`
means fuel ran out before the source's own recursion bottomed out. -/
def simulate {σ : Type} (B : Board σ) :
    Nat → σ → Nat → TT → Int → Int → Option (SimResult σ)
  | 0, _, _, _, _, _ => none
  | fuel + 1, s, color, tt, alpha, beta =>
    let code := B.getCode s
    let tt_lookup := TT.lookup tt code
    if truthy tt_lookup then
      some ⟨tt_lookup.getD 0, s, tt, [Ev.getCode code, Ev.lookup code tt_lookup]⟩
    else
      let endgame_query_result := B.evaluateEndgame s
      if endgame_query_result ≠ EMPTY then
        let code2 := B.getCode s
        let value : Int := if endgame_query_result = color then 1 else -1
        let stt := TT.store tt code2 value
        some ⟨stt.2, s, stt.1,
          [Ev.getCode code, Ev.lookup code tt_lookup,
           Ev.endgame endgame_query_result, Ev.getCode code2, Ev.store code2 value]⟩
      else
        let legal_moves := generate_legal_moves B s color
        simLoop B
          (fun s1 tt1 a => simulate B fuel s1 (opponent color) tt1 (-beta) (-a))
          color code beta s tt alpha legal_moves
          [Ev.getCode code, Ev.lookup code tt_lookup,
           Ev.endgame endgame_query_result, Ev.genMoves legal_moves]

/-! ## Concrete instances of the board interface, used to exhibit witnesses
and counterexamples on explicit inputs -/

/-- A trivially decided position: no empty points, `evaluate_endgame`
already reports `BLACK` as the winner, and the position code is `42`. -/
def Bce : Board Unit where
  getEmptyPoints _ := []
  isLegal _ _ _ := true
  evaluateEndgame _ := BLACK
  playMove _ _ _ := ()
  undoLastMove _ := ()
  getCode _ := 42

/-- A one-point board whose state is the stack of played moves: point `5`
is the only point, every move is legal, the game is decided for `WHITE` as
soon as any move has been played, and play/undo are push/pop. -/
def Bt : Board (List (Nat × Nat)) where
  getEmptyPoints s := ([5] : List Nat).filter (fun p => !(s.any (fun q => q.1 == p)))
  isLegal _ _ _ := true
  evaluateEndgame s := if s.length = 0 then EMPTY else WHITE
  playMove s m c := (m, c) :: s
  undoLastMove s := s.tail
  getCode s := s.foldl (fun a q => a * 31 + (q.1 * 4 + q.2)) 1

/-- A concrete child evaluation for exercising the move loop in isolation:
it reports value `-3` and leaves board and table untouched. -/
def cutChild : List (Nat × Nat) → TT → Int → Option (SimResult (List (Nat × Nat))) :=
  fun s1 tt _ => some ⟨-3, s1, tt, []⟩

/-- Recognizer for hash-computation events in a trace. -/
def isGetCodeEv : Ev → Bool
  | Ev.getCode _ => true
  | _ => false

/-! ## Theorems -/

/-- Claim C7: for every `boardsize ≥ 1` and coordinate with
`1 ≤ row ≤ boardsize` and `1 ≤ col ≤ boardsize`,
`point_to_coord (coord_to_point row col boardsize) boardsize = (row, col)`;
consequently `coord_to_point` is injective on the valid domain for a fixed
boardsize. -/
theorem coord_point_roundtrip_inj (boardsize row col : Nat)
    (h1 : 1 ≤ row) (h2 : row ≤ boardsize) (h3 : 1 ≤ col) (h4 : col ≤ boardsize) :
    point_to_coord (some (coord_to_point row col boardsize)) boardsize = some (row, col) ∧
    ∀ r2 c2 : Nat, 1 ≤ r2 → r2 ≤ boardsize → 1 ≤ c2 → c2 ≤ boardsize →
      coord_to_point row col boardsize = coord_to_point r2 c2 boardsize →
      row = r2 ∧ col = c2 := by
  have key : ∀ r c : Nat, 1 ≤ r → r ≤ boardsize → 1 ≤ c → c ≤ boardsize →
      point_to_coord (some (coord_to_point r c boardsize)) boardsize = some (r, c) := by
    intro r c _ _ _ hc2
    have hb : 0 < boardsize + 1 := Nat.succ_pos _
    have hclt : c < boardsize + 1 := Nat.lt_succ_of_le hc2
    simp only [point_to_coord, coord_to_point, Option.some.injEq, Prod.mk.injEq]
    constructor
    · rw [Nat.mul_add_div hb, Nat.div_eq_of_lt hclt]
      exact Nat.add_zero r
    · rw [Nat.mul_add_mod, Nat.mod_eq_of_lt hclt]
  refine ⟨key row col h1 h2 h3 h4, ?_⟩
  intro r2 c2 g1 g2 g3 g4 heq
  have e1 := key row col h1 h2 h3 h4
  have e2 := key r2 c2 g1 g2 g3 g4
  rw [heq, e2] at e1
  simp only [Option.some.injEq, Prod.mk.injEq] at e1
  exact ⟨e1.1.symm, e1.2.symm⟩

/-- Witness for C7 at `boardsize = 5`, `(row, col) = (2, 3)`. -/
theorem coord_point_roundtrip_inj_witness :
    point_to_coord (some (coord_to_point 2 3 5)) 5 = some (2, 3) :=
  (coord_point_roundtrip_inj 5 2 3 (by decide) (by decide) (by decide) (by decide)).1

/-- Claim C8: `lookup` immediately after `store code v` returns `v` (and
`store` itself returns `v`), while `lookup` on a code never stored — the
table having been built from the empty dictionary by any sequence of stores
of other codes — returns the absent signal `none`. -/
theorem tt_store_lookup_roundtrip :
    (∀ (t : TT) (code : Nat) (v : Int),
        (TT.store t code v).2 = v ∧
        TT.lookup (TT.store t code v).1 code = some v) ∧
    ∀ (ops : List (Nat × Int)) (code : Nat),
      code ∉ ops.map Prod.fst →
      TT.lookup (ops.foldl (fun t p => (TT.store t p.1 p.2).1) ([] : TT)) code = none := by
  constructor
  · intro t code v
    refine ⟨rfl, ?_⟩
    simp [TT.lookup, TT.store, List.find?]
  · have keys : ∀ (ops : List (Nat × Int)) (t : TT) (p : Nat × Int),
        p ∈ ops.foldl (fun t q => (TT.store t q.1 q.2).1) t →
        p ∈ t ∨ p.1 ∈ ops.map Prod.fst := by
      intro ops
      induction ops with
      | nil => intro t p hp; exact Or.inl hp
      | cons o rest ih =>
        intro t p hp
        rcases ih ((o.1, o.2) :: t) p hp with h | h
        · rcases List.mem_cons.mp h with h | h
          · right; rw [h]; simp
          · exact Or.inl h
        · right; simp [h]
    intro ops code hco
    rw [TT.lookup, List.find?_eq_none.mpr, Option.map_none']
    intro p hp
    rcases keys ops [] p hp with h | h
    · simp at h
    · simp only [beq_iff_eq]
      intro hpc
      exact hco (hpc ▸ h)

/-- Witness for C8: round-trip at `code = 7`, `v = 5` over a nonempty
table, and absence of `code = 3` after storing only `code = 7`. -/
theorem tt_store_lookup_roundtrip_witness :
    TT.lookup (TT.store [(2, 1)] 7 5).1 7 = some 5 ∧
    TT.lookup ([((7 : Nat), (5 : Int))].foldl
      (fun t p => (TT.store t p.1 p.2).1) ([] : TT)) 3 = none :=
  ⟨(tt_store_lookup_roundtrip.1 [(2, 1)] 7 5).2,
   tt_store_lookup_roundtrip.2 [(7, 5)] 3 (by decide)⟩

/-- Claim C6 (counterexample): the Zobrist entries do NOT all lie strictly
below `2 ^ 32 - 1`.  Python's `random.randint(1, 2**32 - 1)` is inclusive on
both ends: the draw `2 ^ 32 - 2` from the random stream yields the entry
`2 ^ 32 - 1` itself. -/
theorem zobrist_entries_counterexample :
    zobrist 1 (fun _ => 2 ^ 32 - 2) = [[[2 ^ 32 - 1, 2 ^ 32 - 1]]] ∧
    ¬ (2 ^ 32 - 1 < 2 ^ 32 - 1) := by decide

/-- Claim C6 (amended): every entry of the Zobrist table lies in the CLOSED
range `[1, 2 ^ 32 - 1]` (Python's `randint` bounds are inclusive), and for a
given board size the table has `size × size × 2` entries. -/
theorem zobrist_entries_range_dims (size : Nat) (stream : Nat → Nat) :
    (zobrist size stream).length = size ∧
    ∀ plane ∈ zobrist size stream, plane.length = size ∧
      ∀ cell ∈ plane, cell.length = 2 ∧
        ∀ v ∈ cell, 1 ≤ v ∧ v ≤ 2 ^ 32 - 1 := by
  constructor
  · simp [zobrist]
  · intro plane hplane
    simp only [zobrist, List.mem_map, List.mem_range] at hplane
    obtain ⟨k, hk, rfl⟩ := hplane
    refine ⟨by simp, ?_⟩
    intro cell hcell
    simp only [List.mem_map, List.mem_range] at hcell
    obtain ⟨j, hj, rfl⟩ := hcell
    refine ⟨by simp, ?_⟩
    intro v hv
    simp only [List.mem_map, List.mem_range] at hv
    obtain ⟨i, hi, rfl⟩ := hv
    unfold randint
    have hpos : 0 < 2 ^ 32 - 1 - 1 + 1 := by norm_num
    have := Nat.mod_lt (stream ((k * size + j) * 2 + i)) hpos
    omega

/-- Witness for the amended C6 at `size = 1` with the all-zero stream. -/
theorem zobrist_entries_range_dims_witness :
    (zobrist 1 (fun _ => 0)).length = 1 ∧ ((1 : Nat) ≤ 1 ∧ (1 : Nat) ≤ 2 ^ 32 - 1) := by
  have h := zobrist_entries_range_dims 1 (fun _ => 0)
  exact ⟨h.1, ((((h.2 [[1, 1]] (by decide)).2 [1, 1] (by decide)).2) 1 (by decide))⟩

/-- For a column in `[0, 25)`, the Python index `col - 1` into the
25-letter alphabet always succeeds and yields a letter of the alphabet
(`col = 0` wraps to the last letter via negative indexing). -/
theorem pyIndex_col_ok (col : Int) (h1 : 0 ≤ col) (h2 : col < 25) :
    pyStringIndex column_letters.toList (col - 1) =
      some ((pyStringIndex column_letters.toList (col - 1)).getD 'A') ∧
    (pyStringIndex column_letters.toList (col - 1)).getD 'A' ∈ column_letters.toList := by
  interval_cases col <;> exact ⟨by decide, by decide⟩

/-- Claim C9: `format_point PASS = "pass"`; on a coordinate pair the
function fails with an invalid-argument error exactly when the row or the
column falls outside `[0, MAXSIZE) = [0, 25)`, and otherwise returns a
letter of the 25-letter alphabet that skips I, followed by the row
number. -/
theorem format_point_spec :
    format_point none = some "pass" ∧
    MAXSIZE = 25 ∧
    column_letters.length = 25 ∧
    'I' ∉ column_letters.toList ∧
    ∀ row col : Int,
      (format_point (some (row, col)) = none ↔
        ¬ (0 ≤ row ∧ row < 25) ∨ ¬ (0 ≤ col ∧ col < 25)) ∧
      (0 ≤ row → row < 25 → 0 ≤ col → col < 25 →
        ∃ ch, format_point (some (row, col)) = some (String.mk [ch] ++ toString row) ∧
          ch ∈ column_letters.toList) := by
  have hm : ((MAXSIZE : Nat) : Int) = 25 := by decide
  refine ⟨rfl, rfl, rfl, by decide, ?_⟩
  intro row col
  have hsome : 0 ≤ row → row < 25 → 0 ≤ col → col < 25 →
      ∃ ch, format_point (some (row, col)) = some (String.mk [ch] ++ toString row) ∧
        ch ∈ column_letters.toList := by
    intro hr1 hr2 hc1 hc2
    obtain ⟨hidx, hmem⟩ := pyIndex_col_ok col hc1 hc2
    refine ⟨(pyStringIndex column_letters.toList (col - 1)).getD 'A', ?_, hmem⟩
    rw [format_point, hm, if_neg, hidx]
    · rfl
    · push_neg
      exact ⟨⟨hr1, hr2⟩, hc1, hc2⟩
  refine ⟨⟨?_, ?_⟩, hsome⟩
  · intro h
    by_contra hc
    push_neg at hc
    obtain ⟨⟨hr1, hr2⟩, hc1, hc2⟩ := hc
    obtain ⟨ch, hch, _⟩ := hsome hr1 hr2 hc1 hc2
    rw [h] at hch
    exact Option.noConfusion hch
  · intro h
    rw [format_point, hm, if_pos h]

/-- Witness for C9: `format_point` of `PASS`, of an out-of-range column,
and of an in-range coordinate. -/
theorem format_point_spec_witness :
    format_point none = some "pass" ∧
    format_point (some (0, 26)) = none ∧
    format_point (some (3, 2)) ≠ none :=
  ⟨format_point_spec.1,
   ((format_point_spec.2.2.2.2 0 26).1.mpr (by norm_num)),
   by
    obtain ⟨ch, hch, _⟩ :=
      (format_point_spec.2.2.2.2 3 2).2 (by norm_num) (by norm_num) (by norm_num) (by norm_num)
    rw [hch]
    exact Option.noConfusion⟩

/-- Claim C10: for every row in `[0, 25)`, `format_point (row, 0)` does not
raise: column `0` passes the range check, the index `col - 1 = -1` selects
the LAST letter of the alphabet by Python negative indexing, and the result
is the string `"Z"` followed by the row number, although `0` is not a valid
1-based column. -/
theorem format_point_col_zero (row : Int) (h1 : 0 ≤ row) (h2 : row < 25) :
    format_point (some (row, 0)) = some ("Z" ++ toString row) := by
  have hm : ((MAXSIZE : Nat) : Int) = 25 := by decide
  have hidx : pyStringIndex column_letters.toList (0 - 1) = some 'Z' := by decide
  rw [format_point, hm, if_neg, hidx]
  push_neg
  exact ⟨⟨h1, h2⟩, by norm_num⟩

/-- Witness for C10 at `row = 3`: the result is `"Z3"`. -/
theorem format_point_col_zero_witness :
    format_point (some (3, 0)) = some "Z3" := by
  rw [format_point_col_zero 3 (by norm_num) (by norm_num)]
  decide

/-- Claim C1 (counterexample): a value of `0` stored in the cache under the
current position's code is NOT returned by `simulate`.  The hit check
`if tt_lookup:` is a truthiness test, so the stored `0` is treated as
absent: on `Bce` with `0` cached under code `42`, `simulate` goes on to
query the endgame evaluator and returns `1`, not the stored `0`. -/
theorem simulate_cache_hit_zero_counterexample :
    TT.lookup [(42, 0)] (Bce.getCode ()) = some 0 ∧
    simulate Bce 1 () BLACK [(42, 0)] (-2) 2 =
      some ⟨1, (), [(42, 1), (42, 0)],
        [Ev.getCode 42, Ev.lookup 42 (some 0), Ev.endgame BLACK,
         Ev.getCode 42, Ev.store 42 1]⟩ := by decide

/-- Claim C1 (amended): for every NONZERO value `v` stored in the cache
under the current position's code, `simulate` returns `v` immediately: the
board and table are untouched and the frame's trace consists of the hash
computation and the cache lookup only — no endgame query, no move
enumeration, no move played.  A stored `0` is missed by the truthiness-based
hit check and the search proceeds as on a cache miss. -/
theorem simulate_cache_hit_nonzero {σ : Type} (B : Board σ) (fuel : Nat) (s : σ)
    (color : Nat) (tt : TT) (alpha beta : Int) (v : Int)
    (hv : TT.lookup tt (B.getCode s) = some v) (hnz : v ≠ 0) :
    simulate B (fuel + 1) s color tt alpha beta =
      some ⟨v, s, tt, [Ev.getCode (B.getCode s), Ev.lookup (B.getCode s) (some v)]⟩ := by
  have ht : truthy (some v) = true := by simp [truthy, hnz]
  simp [simulate, hv, ht]

/-- Witness for the amended C1: value `7` cached under code `42`. -/
theorem simulate_cache_hit_nonzero_witness :
    simulate Bce 1 () BLACK [(42, 7)] (-2) 2 =
      some ⟨7, (), [(42, 7)], [Ev.getCode 42, Ev.lookup 42 (some 7)]⟩ :=
  simulate_cache_hit_nonzero Bce 0 () BLACK [(42, 7)] (-2) 2 7 (by decide) (by decide)

/-- Claim C4: on a cache miss (no entry the truthiness-based hit check
accepts), if the endgame evaluator reports a non-`EMPTY` winner `w`, then
`simulate` returns `+1` when `w` is the searching color and `-1` otherwise,
stores that value under the current position's code, and its trace shows no
move enumeration and no move played. -/
theorem simulate_terminal_eval {σ : Type} (B : Board σ) (fuel : Nat) (s : σ)
    (color : Nat) (tt : TT) (alpha beta : Int) (w : Nat)
    (hmiss : truthy (TT.lookup tt (B.getCode s)) = false)
    (hw : B.evaluateEndgame s = w) (hne : w ≠ EMPTY) :
    simulate B (fuel + 1) s color tt alpha beta =
      some ⟨if w = color then 1 else -1, s,
        (TT.store tt (B.getCode s) (if w = color then 1 else -1)).1,
        [Ev.getCode (B.getCode s), Ev.lookup (B.getCode s) (TT.lookup tt (B.getCode s)),
         Ev.endgame w, Ev.getCode (B.getCode s),
         Ev.store (B.getCode s) (if w = color then 1 else -1)]⟩ := by
  simp [simulate, hmiss, hw, hne, TT.store]

/-- Witness for C4: winner `BLACK` against searching color `WHITE` on an
empty cache gives `-1`. -/
theorem simulate_terminal_eval_witness :
    (simulate Bce 1 () WHITE [] 0 0).map SimResult.value = some (-1) := by
  rw [simulate_terminal_eval Bce 0 () WHITE [] 0 0 BLACK rfl rfl (by decide)]
  decide

/-- Claim C3: in the move loop, if the negated value of the recursive child
call reaches or exceeds `beta`, the loop stops and returns exactly `beta`
(not the child's value), after undoing the move; the result does not depend
on `rest` at all and the frame's trace records no play of any later move. -/
theorem simLoop_beta_cutoff {σ : Type} (B : Board σ)
    (child : σ → TT → Int → Option (SimResult σ)) (color code : Nat) (beta : Int)
    (s : σ) (tt : TT) (alpha : Int) (m : Nat) (rest : List Nat) (evs : List Ev)
    (r1 : SimResult σ)
    (hc : child (B.playMove s m color) tt alpha = some r1)
    (hcut : -r1.value ≥ beta) :
    simLoop B child color code beta s tt alpha (m :: rest) evs =
      some ⟨beta, B.undoLastMove r1.board, (TT.store r1.tt code (-r1.value)).1,
        evs ++ [Ev.play m color, Ev.store code (-r1.value), Ev.undo]⟩ := by
  simp [simLoop, hc, hcut]

/-- Witness for C3: a child value of `-3` against `beta = 2` cuts off with
result `2` (not `3`), and the pending move `7` never appears in the trace. -/
theorem simLoop_beta_cutoff_witness :
    simLoop Bt cutChild BLACK 9 2 [] [] 0 [5, 7] [] =
      some ⟨2, [], [(9, 3)], [Ev.play 5 BLACK, Ev.store 9 3, Ev.undo]⟩ := by
  rw [simLoop_beta_cutoff Bt cutChild BLACK 9 2 [] [] 0 5 [7] []
    ⟨-3, [(5, BLACK)], [], []⟩ (by decide) (by decide)]
  decide

/-- If undo exactly reverses play and every child call returns the board it
was given, then the move loop returns the board it was given: each played
move is undone before the loop returns, on the cutoff path as well as on
exhaustion. -/
theorem simLoop_preserves_board {σ : Type} (B : Board σ)
    (child : σ → TT → Int → Option (SimResult σ)) (color code : Nat) (beta : Int)
    (hsym : ∀ (s : σ) (m c : Nat), B.undoLastMove (B.playMove s m c) = s)
    (hchild : ∀ s1 tt1 a r1, child s1 tt1 a = some r1 → r1.board = s1) :
    ∀ (moves : List Nat) (s : σ) (tt : TT) (alpha : Int) (evs : List Ev) (r : SimResult σ),
      simLoop B child color code beta s tt alpha moves evs = some r → r.board = s := by
  intro moves
  induction moves with
  | nil =>
    intro s tt alpha evs r h
    simp only [simLoop, Option.some.injEq] at h
    rw [← h]
  | cons m rest ih =>
    intro s tt alpha evs r h
    simp only [simLoop] at h
    cases hc : child (B.playMove s m color) tt alpha with
    | none => rw [hc] at h; simp at h
    | some r1 =>
      rw [hc] at h
      simp only [] at h
      have hb1 : r1.board = B.playMove s m color := hchild _ _ _ _ hc
      by_cases hcut : -r1.value ≥ beta
      · rw [if_pos hcut, Option.some.injEq] at h
        rw [← h]
        simp only []
        rw [hb1, hsym]
      · rw [if_neg hcut] at h
        have := ih _ _ _ _ _ h
        rw [this, hb1, hsym]

/-- Claim C5: assuming `undoLastMove` exactly reverses the most recent
`play_move`, every `simulate` call that returns (does not run out of fuel)
leaves the board in exactly the state it had at entry, on every exit path
(cache hit, terminal position, beta cutoff, loop exhaustion). -/
theorem simulate_preserves_board {σ : Type} (B : Board σ)
    (hsym : ∀ (s : σ) (m c : Nat), B.undoLastMove (B.playMove s m c) = s) :
    ∀ (fuel : Nat) (s : σ) (color : Nat) (tt : TT) (alpha beta : Int) (r : SimResult σ),
      simulate B fuel s color tt alpha beta = some r → r.board = s := by
  intro fuel
  induction fuel with
  | zero =>
    intro s color tt alpha beta r h
    simp [simulate] at h
  | succ fuel ih =>
    intro s color tt alpha beta r h
    simp only [simulate] at h
    by_cases h1 : truthy (TT.lookup tt (B.getCode s)) = true
    · rw [if_pos h1, Option.some.injEq] at h
      rw [← h]
    · rw [if_neg h1] at h
      by_cases h2 : B.evaluateEndgame s ≠ EMPTY
      · rw [if_pos h2, Option.some.injEq] at h
        rw [← h]
      · rw [if_neg h2] at h
        exact simLoop_preserves_board B _ color _ beta hsym
          (fun s1 tt1 a r1 hr => ih s1 (opponent color) tt1 (-beta) (-a) r1 hr)
          _ _ _ _ _ _ h

/-- Witness for C5: a full search on the one-point board returns with the
board in its entry state `[]`. -/
theorem simulate_preserves_board_witness :
    (simulate Bt 3 [] BLACK [] (-2) 2).map SimResult.board = some [] := by
  cases h : simulate Bt 3 [] BLACK [] (-2) 2 with
  | none => exact absurd h (by decide)
  | some r =>
    rw [Option.map_some']
    rw [simulate_preserves_board Bt (fun s m c => rfl) 3 [] BLACK [] (-2) 2 r h]

/-- Shape of the events the move loop appends to its frame's trace: only
plays of the loop's own color, stores under the loop's `code` parameter,
and undos — in particular no hash computation. -/
theorem simLoop_trace_shape {σ : Type} (B : Board σ)
    (child : σ → TT → Int → Option (SimResult σ)) (color code : Nat) (beta : Int) :
    ∀ (moves : List Nat) (s : σ) (tt : TT) (alpha : Int) (evs : List Ev) (r : SimResult σ),
      simLoop B child color code beta s tt alpha moves evs = some r →
      ∃ tl, r.trace = evs ++ tl ∧
        ∀ e ∈ tl, isGetCodeEv e = false ∧ ∀ c v, e = Ev.store c v → c = code := by
  intro moves
  induction moves with
  | nil =>
    intro s tt alpha evs r h
    simp only [simLoop, Option.some.injEq] at h
    refine ⟨[], ?_, by simp⟩
    rw [← h, List.append_nil]
  | cons m rest ih =>
    intro s tt alpha evs r h
    simp only [simLoop] at h
    cases hc : child (B.playMove s m color) tt alpha with
    | none => rw [hc] at h; simp at h
    | some r1 =>
      rw [hc] at h
      simp only [] at h
      have hblock : ∀ e ∈ [Ev.play m color, Ev.store code (-r1.value), Ev.undo],
          isGetCodeEv e = false ∧ ∀ c v, e = Ev.store c v → c = code := by
        intro e he
        simp only [List.mem_cons, List.not_mem_nil, or_false] at he
        rcases he with rfl | rfl | rfl
        · exact ⟨rfl, fun c v hv => nomatch hv⟩
        · refine ⟨rfl, fun c v hv => ?_⟩
          injection hv with hv1 hv2
          exact hv1.symm
        · exact ⟨rfl, fun c v hv => nomatch hv⟩
      by_cases hcut : -r1.value ≥ beta
      · rw [if_pos hcut, Option.some.injEq] at h
        refine ⟨[Ev.play m color, Ev.store code (-r1.value), Ev.undo], ?_, hblock⟩
        rw [← h]
      · rw [if_neg hcut] at h
        obtain ⟨tl, htr, hall⟩ := ih _ _ _ _ _ h
        refine ⟨[Ev.play m color, Ev.store code (-r1.value), Ev.undo] ++ tl, ?_, ?_⟩
        · rw [htr, List.append_assoc]
        · intro e he
          rcases List.mem_append.mp he with he | he
          · exact hblock e he
          · exact hall e he

/-- Block structure of the events the move loop appends: one block
`[play mᵢ color, store code vᵢ, undo]` per examined move, where `vᵢ` is the
negated value of that move's recursive child call and `code` is the loop's
code parameter. -/
theorem simLoop_trace_blocks {σ : Type} (B : Board σ)
    (child : σ → TT → Int → Option (SimResult σ)) (color code : Nat) (beta : Int) :
    ∀ (moves : List Nat) (s : σ) (tt : TT) (alpha : Int) (evs : List Ev) (r : SimResult σ),
      simLoop B child color code beta s tt alpha moves evs = some r →
      ∃ blocks : List (Nat × Int),
        r.trace = evs ++
          (blocks.map (fun p => [Ev.play p.1 color, Ev.store code p.2, Ev.undo])).flatten := by
  intro moves
  induction moves with
  | nil =>
    intro s tt alpha evs r h
    simp only [simLoop, Option.some.injEq] at h
    refine ⟨[], ?_⟩
    rw [← h]
    simp
  | cons m rest ih =>
    intro s tt alpha evs r h
    simp only [simLoop] at h
    cases hc : child (B.playMove s m color) tt alpha with
    | none => rw [hc] at h; simp at h
    | some r1 =>
      rw [hc] at h
      simp only [] at h
      by_cases hcut : -r1.value ≥ beta
      · rw [if_pos hcut, Option.some.injEq] at h
        refine ⟨[(m, -r1.value)], ?_⟩
        rw [← h]
        simp
      · rw [if_neg hcut] at h
        obtain ⟨blocks, hb⟩ := ih _ _ _ _ _ h
        refine ⟨(m, -r1.value) :: blocks, ?_⟩
        rw [hb]
        simp [List.append_assoc]

/-- Claim C2: in an expansion of `simulate` that reaches the move loop
(cache miss, endgame undecided), the frame computes the position's hash
code exactly once — it is the frame's very first operation, before any
child move is applied — every store this frame performs goes under that
same parent code, not under the code of any child position, and the loop
events come as one `[play, store-under-parent-code, undo]` block per
examined move (the stored value being, by the definition of `simLoop`, the
negated value of that move's recursive call). -/
theorem simulate_single_code_parent_stores {σ : Type} (B : Board σ) (fuel : Nat)
    (s : σ) (color : Nat) (tt : TT) (alpha beta : Int) (r : SimResult σ)
    (hmiss : truthy (TT.lookup tt (B.getCode s)) = false)
    (hterm : B.evaluateEndgame s = EMPTY)
    (hres : simulate B (fuel + 1) s color tt alpha beta = some r) :
    r.trace.head? = some (Ev.getCode (B.getCode s)) ∧
    r.trace.filter isGetCodeEv = [Ev.getCode (B.getCode s)] ∧
    (∀ c v, Ev.store c v ∈ r.trace → c = B.getCode s) ∧
    ∃ blocks : List (Nat × Int),
      r.trace =
        [Ev.getCode (B.getCode s),
         Ev.lookup (B.getCode s) (TT.lookup tt (B.getCode s)),
         Ev.endgame EMPTY, Ev.genMoves (generate_legal_moves B s color)] ++
        (blocks.map (fun p =>
          [Ev.play p.1 color, Ev.store (B.getCode s) p.2, Ev.undo])).flatten := by
  simp only [simulate] at hres
  have h1 : ¬ (truthy (TT.lookup tt (B.getCode s)) = true) := by
    rw [hmiss]; exact Bool.false_ne_true
  have h2 : ¬ (B.evaluateEndgame s ≠ EMPTY) := by
    rw [hterm]; exact fun hh => hh rfl
  rw [if_neg h1, if_neg h2] at hres
  have hblocks := simLoop_trace_blocks B _ color _ beta _ _ _ _ _ _ hres
  rw [hterm] at hblocks
  obtain ⟨tl, htr, hall⟩ := simLoop_trace_shape B _ color _ beta _ _ _ _ _ _ hres
  refine ⟨?_, ?_, ?_, ?_⟩
  · rw [htr]; rfl
  · rw [htr, List.filter_append]
    have hpre : List.filter isGetCodeEv
        [Ev.getCode (B.getCode s), Ev.lookup (B.getCode s) (TT.lookup tt (B.getCode s)),
         Ev.endgame (B.evaluateEndgame s), Ev.genMoves (generate_legal_moves B s color)] =
        [Ev.getCode (B.getCode s)] := by
      simp [List.filter, isGetCodeEv]
    rw [hpre, List.filter_eq_nil_iff.mpr, List.append_nil]
    intro e he
    rw [(hall e he).1]
    exact Bool.false_ne_true
  · intro c v hm
    rw [htr] at hm
    rcases List.mem_append.mp hm with hm | hm
    · simp at hm
    · exact (hall _ hm).2 c v rfl
  · exact hblocks

/-- Witness for C2: on the one-point board the frame reaching the move loop
contains exactly one hash computation in its trace. -/
theorem simulate_single_code_parent_stores_witness :
    (simulate Bt 2 [] BLACK [] (-2) 2).map (fun r => r.trace.filter isGetCodeEv) =
      some [Ev.getCode (Bt.getCode [])] := by
  cases h : simulate Bt 2 [] BLACK [] (-2) 2 with
  | none => exact absurd h (by decide)
  | some r =>
    rw [Option.map_some']
    exact congrArg some
      (simulate_single_code_parent_stores Bt 1 [] BLACK [] (-2) 2 r (by decide)
        (by decide) h).2.1

end BoardUtil
